import Mathlib

/-!
Verification of the ID3 entropy / feature-selection module
(`src/decision_tree/id3/entropy/__init__.py`).

Modelling decisions, shared by every definition below:

* Tables (pandas `DataFrame`s of categorical string data) are a list of
  column names together with a list of rows; each row is the list of its
  cells, aligned positionally with the column names.
* Float values are modelled as `Option ℚ`: `some q` is a finite double,
  `none` stands for a non-finite double (NaN or an infinity).  Non-finite
  values arise in the module exactly when `np.log2` is applied to a
  non-positive argument (`np.log2(0.0) = -inf`, and `0.0 * -inf = nan`),
  and `none` propagates through arithmetic just as NaN does.
* The finite values of `np.log2` on positive rationals are abstracted by a
  parameter `L : ℚ → ℚ`; theorems that need a concrete property of the
  logarithm (only `log2 1 = 0` is ever needed) take it as a hypothesis on
  `L`.
* All cell values are strings (the data model of the spec: fully
  categorical tables), so the `str(n)` applied to a `groupby` key in
  `feature_entropy` is the identity and is not modelled separately.
* pandas `groupby` iterates groups in sorted key order; the model uses
  first-occurrence order of the keys.  Every consumer of a grouping in the
  module folds the groups through a commutative `ℚ`-sum, so the two
  presentations agree wherever the module looks at a grouping.
* Python dicts are insertion-ordered with unique keys; the dict built by
  `max_info_gain_feature` is modelled as an association list (one entry
  per column of the working copy, in column order).
-/

/-- Double-precision values flowing through the module: `some q` is a
finite value, `none` is a non-finite one (NaN / ±inf). -/
abbrev Flt := Option ℚ

/-- Float addition; a non-finite operand contaminates the result (this is
how NaN propagates; the only non-finite values reachable in the module are
NaN-producing, see `_eqn`). -/
def fadd : Flt → Flt → Flt
  | some a, some b => some (a + b)
  | _, _ => none

/-- Float multiplication; the reachable non-finite case is
`0.0 * (-inf) = nan`, hence `none` absorbs. -/
def fmul : Flt → Flt → Flt
  | some a, some b => some (a * b)
  | _, _ => none

/-- Float negation. -/
def fneg : Flt → Flt
  | some a => some (-a)
  | none => none

/-- Model of `np.log2`: finite (value given by the abstract `L`) on
positive arguments, non-finite otherwise (`-inf` at `0`, NaN below). -/
def flog2 (L : ℚ → ℚ) (q : ℚ) : Flt :=
  if 0 < q then some (L q) else none

/-- Python `sum` over a list of floats (accumulates from `0`). -/
def fsum (l : List Flt) : Flt := l.foldl fadd (some 0)

/-- A dataframe: ordered column names and the rows, each row holding the
cells in column order. -/
structure Table where
  cols : List String
  rows : List (List String)
deriving DecidableEq

/-- A named label column (`y`: a pandas Series with a `.name`), aligned
with the table by row position. -/
structure LabelVec where
  name : String
  values : List String
deriving DecidableEq

/-- Cell of a row at column position `i`. -/
def cellAt (i : Nat) (r : List String) : String := r.getD i ("")

/-- Values of column `f` in row order (`df[f]`).  A missing column name
would raise `KeyError` in pandas; no claim probes a missing column. -/
def colValues (t : Table) (f : String) : List String :=
  match t.cols.findIdx? (fun c => decide (c = f)) with
  | some i => t.rows.map (cellAt i)
  | none => []

/-- Subtable of the rows whose `f`-cell equals `v`
(`df.loc[df[f] == v]`). -/
def filterEq (t : Table) (f v : String) : Table :=
  match t.cols.findIdx? (fun c => decide (c = f)) with
  | some i => ⟨t.cols, t.rows.filter (fun r => decide (cellAt i r = v))⟩
  | none => ⟨t.cols, []⟩

/-- Distinct values of a list, first occurrence first (see the header note
on `groupby` key order). -/
def uniq : List String → List String
  | [] => []
  | v :: vs => v :: uniq (vs.filter (fun u => decide (u ≠ v)))
termination_by l => l.length
decreasing_by
  simp only [List.length_cons]
  exact Nat.lt_succ_of_le (List.length_filter_le _ _)

/-- Model of `df.groupby(f)`: one `(key, subtable)` pair per distinct
value of column `f`. -/
def groupBy (t : Table) (f : String) : List (String × Table) :=
  (uniq (colValues t f)).map (fun v => (v, filterEq t f v))

/-- Source `_eqn(val)`: `val * np.log2(val)`. -/
def _eqn (L : ℚ → ℚ) (val : ℚ) : Flt := fmul (some val) (flog2 L val)

/-- Source `_feature_value_entropy(values_per_label_value)`:
`total = sum(...)`, then `- sum([_eqn(i / total) for i in ...])`.
A zero total with a nonempty list would raise `ZeroDivisionError` in
Python; every claim below stays at positive totals, where the rational
`i / total` agrees with the float quotient. -/
def _feature_value_entropy (L : ℚ → ℚ) (values_per_label_value : List Nat) : Flt :=
  fneg (fsum (values_per_label_value.map
    (fun (i : Nat) => _eqn L ((i : ℚ) / ((values_per_label_value.sum : ℕ) : ℚ)))))

/-- Source `_e(feat_val_df, label)`: entropy of the label distribution,
from the sizes of the groups of a `groupby(label)`. -/
def _e (L : ℚ → ℚ) (t : Table) (label : String) : Flt :=
  _feature_value_entropy L ((groupBy t label).map (fun g => g.2.rows.length))

/-- Source `p(df, feature, feature_value)`:
`len(df.loc[df[feature] == feature_value]) / len(df)`.  Python raises
`ZeroDivisionError` on an empty `df`; every claim below divides at a
nonempty table (in `feature_entropy`, `p` is only evaluated when a group
exists, hence the table is nonempty). -/
def p (t : Table) (feature feature_value : String) : ℚ :=
  ((filterEq t feature feature_value).rows.length : ℚ) / (t.rows.length : ℚ)

/-- Source `feature_entropy(df, feature, label)`: the sum over the groups
of `df.groupby(feature)` of `p(df, feature, str(n)) * _e(group, label)`
(`str` is the identity on the string-valued keys, see header). -/
def feature_entropy (L : ℚ → ℚ) (t : Table) (feature label : String) : Flt :=
  fsum ((groupBy t feature).map (fun g => fmul (some (p t feature g.1)) (_e L g.2 label)))

/-- Python exceptions that `max_info_gain_feature` can raise, by site:
`df.insert` on an existing column name (`ValueError`), `df.drop` on a
missing column (`KeyError`), `del` on a missing dict key (`KeyError`),
`min()` of an empty sequence (`ValueError`). -/
inductive PyErr
  | valueErrorInsert (c : String)
  | keyErrorDrop (c : String)
  | keyErrorDel (c : String)
  | valueErrorMinEmpty
deriving DecidableEq

/-- Error taxonomy of the spec (section 7). -/
inductive ErrKind
  | invalidInput
  | ambiguousLabel
deriving DecidableEq

/-- Classification of each concrete exception under the spec's taxonomy:
the insert collision is the spec's `AmbiguousLabelError`; a missing
column/key and an empty candidate set are the spec's `InvalidInputError`
("empty table, empty row set, or a feature/value argument not present"). -/
def PyErr.kind : PyErr → ErrKind
  | .valueErrorInsert _ => .ambiguousLabel
  | _ => .invalidInput

/-- Model of `df.insert(0, c, vals)` (on the private copy): pandas raises
`ValueError: cannot insert c, already exists` when the column name is
taken; otherwise the column goes in at position 0, aligned by row. -/
def insertCol (t : Table) (c : String) (vals : List String) : Except PyErr Table :=
  if c ∈ t.cols then .error (.valueErrorInsert c)
  else .ok ⟨c :: t.cols, List.zipWith (fun v r => v :: r) vals t.rows⟩

/-- Removal of the cells of every column named `c` from one row. -/
def dropRow (cols : List String) (c : String) (r : List String) : List String :=
  ((cols.zip r).filter (fun x => decide (x.1 ≠ c))).map Prod.snd

/-- The table with every column named `c` removed (the successful branch
of `df.drop(c, axis=1)`). -/
def dropTable (t : Table) (c : String) : Table :=
  ⟨t.cols.filter (fun x => decide (x ≠ c)), t.rows.map (dropRow t.cols c)⟩

/-- Model of `df.drop(c, axis=1)`: `KeyError` when no column is named `c`
(pandas default `errors='raise'`), else the column is removed. -/
def dropCol (t : Table) (c : String) : Except PyErr Table :=
  if c ∈ t.cols then .ok (dropTable t c) else .error (.keyErrorDrop c)

/-- Float `<=`, as decided by Python's stable `sorted`; comparisons with a
non-finite value are `False` (NaN semantics) and are never reached by the
selector, whose entropy values are all finite. -/
def fltLe : Flt → Flt → Bool
  | some a, some b => decide (a ≤ b)
  | _, _ => false

/-- Float `<`, as decided by Python's `min` (NaN comparisons are
`False`). -/
def fltLt : Flt → Flt → Bool
  | some a, some b => decide (a < b)
  | _, _ => false

/-- Order on dict entries used by `sorted(..., key=lambda x: x[1])`. -/
def entryLe (a b : String × Flt) : Prop := fltLe a.2 b.2 = true

instance : DecidableRel entryLe := fun a b => by
  unfold entryLe; infer_instance

/-- Model of `del d[k]` on the insertion-ordered dict (unique keys):
`KeyError` when the key is absent, else the entry disappears and the
order of the rest is kept. -/
def pyDel (l : List (String × Flt)) (k : String) : Except PyErr (List (String × Flt)) :=
  if l.any (fun x => decide (x.1 = k)) then .ok (l.filter (fun x => decide (x.1 ≠ k)))
  else .error (.keyErrorDel k)

/-- Model of `min(d, key=d.get)`: Python's `min` walks the keys in dict
order, replacing the current best only on a strict `<` of the associated
values, so the first key attaining the minimum wins; `min` of an empty
sequence raises `ValueError`. -/
def pyMinByVal : List (String × Flt) → Except PyErr String
  | [] => .error .valueErrorMinEmpty
  | x :: xs => .ok ((xs.foldl (fun best cur => if fltLt cur.2 best.2 then cur else best) x).1)

/-- Lines 88–91 of the source, once the working copy `df` is ready:
`entropy_values = dict(sorted({f: feature_entropy(df, f, label) for f in df}.items(), key=lambda x: x[1]))`
— one entry per column of `df` (the label included at this stage), in
column order, stably sorted by entropy value — then
`del entropy_values[label]` and
`return min(entropy_values, key=entropy_values.get)`. -/
def rank (L : ℚ → ℚ) (df : Table) (label : String) : Except PyErr String :=
  match pyDel (List.insertionSort entryLe
      (df.cols.map (fun f => (f, feature_entropy L df f label)))) label with
  | .error e => .error e
  | .ok remaining => pyMinByVal remaining

/-- Source `max_info_gain_feature(df, y)`: rebind `df` to a private copy,
`df.insert(0, label, y)`, `df = df.drop('index', axis=1)`, then rank and
return the minimiser (`rank`). -/
def max_info_gain_feature (L : ℚ → ℚ) (df : Table) (y : LabelVec) : Except PyErr String :=
  match insertCol df y.name y.values with
  | .error e => .error e
  | .ok df1 =>
    match dropCol df1 ("index") with
    | .error e => .error e
    | .ok df2 => rank L df2 y.name

/-- Modelled from the spec (claims C1): the first candidate column — label
excluded, original column order — whose conditional entropy over the
working copy is minimal. -/
def specBest (L : ℚ → ℚ) (wc : Table) (label : String) : Option String :=
  (wc.cols.filter (fun c => decide (c ≠ label))).find? (fun f =>
    (wc.cols.filter (fun c => decide (c ≠ label))).all (fun g =>
      fltLe (feature_entropy L wc f label) (feature_entropy L wc g label)))

/-- Modelled from the spec (claim C2's wording): the sum, over the
distinct values `v` of `feature` present in the table, of
`p(table, feature, v)` times the label-distribution entropy of the
subtable of the rows where `feature == v`. -/
def feature_entropy_spec (L : ℚ → ℚ) (t : Table) (feature label : String) : Flt :=
  fsum ((uniq (colValues t feature)).map (fun v =>
    fmul (some (p t feature v)) (_e L (filterEq t feature v) label)))

/-- Modelled from the spec (claim C6's comparison object): the selector
run on a table already free of an index column — merge the label and rank,
with no drop step. -/
def bestFeatureOnPruned (L : ℚ → ℚ) (df : Table) (y : LabelVec) : Except PyErr String :=
  match insertCol df y.name y.values with
  | .error e => .error e
  | .ok df1 => rank L df1 y.name

/-- Entry lists whose values are all finite — the only lists the selector
ever sorts (see `feature_entropy_some`). -/
def allSome (l : List (String × Flt)) : Prop := ∀ x ∈ l, ∃ q, x.2 = some q

/-! ### Frame model for the entry point (claim C9) -/

/-- A heap-passing rendering of `max_info_gain_feature`.  The Python heap
is a list of dataframe objects; the caller's variable holds the index
`ti`.  `df = df.copy()` allocates a fresh cell (at index `h.length`)
holding a copy of the caller's object and rebinds the local `df` to it;
`df.insert(0, label, y)` mutates, in place, the object in the cell the
local `df` points to (the copy, never the caller's cell);
`df = df.drop('index', axis=1)` computes a fresh object (pandas default
`inplace=False`) and binds it to a fresh cell.  The result is the return
value together with the final heap. -/
def max_info_gain_feature_heap (L : ℚ → ℚ) (h : List Table) (ti : Nat)
    (y : LabelVec) : (Except PyErr String) × List Table :=
  match insertCol ((h ++ [h.getD ti ⟨[], []⟩]).getD h.length ⟨[], []⟩) y.name y.values with
  | .error e => (.error e, h ++ [h.getD ti ⟨[], []⟩])
  | .ok df1 =>
    match dropCol df1 ("index") with
    | .error e => (.error e, (h ++ [h.getD ti ⟨[], []⟩]).set h.length df1)
    | .ok df2 =>
      (rank L df2 y.name, ((h ++ [h.getD ti ⟨[], []⟩]).set h.length df1) ++ [df2])

/-! ### Basic facts about the float model -/

theorem fadd_none_left (x : Flt) : fadd none x = none := by cases x <;> rfl

theorem fadd_none_right (x : Flt) : fadd x none = none := by cases x <;> rfl

theorem foldl_fadd_none (l : List Flt) : l.foldl fadd none = none := by
  induction l with
  | nil => rfl
  | cons x xs ih => rw [List.foldl_cons, fadd_none_left]; exact ih

theorem foldl_fadd_eq_none {l : List Flt} (h : none ∈ l) (acc : Flt) :
    l.foldl fadd acc = none := by
  induction l generalizing acc with
  | nil => cases h
  | cons x xs ih =>
    rcases List.mem_cons.mp h with h1 | h2
    · rw [List.foldl_cons, ← h1, fadd_none_right]
      exact foldl_fadd_none xs
    · rw [List.foldl_cons]
      exact ih h2 _

/-- NaN propagates: a sum with a non-finite term is non-finite. -/
theorem fsum_eq_none_of_mem {l : List Flt} (h : none ∈ l) : fsum l = none :=
  foldl_fadd_eq_none h _

theorem foldl_fadd_some {l : List Flt} (h : ∀ x ∈ l, ∃ q, x = some q) :
    ∀ a : ℚ, ∃ q, l.foldl fadd (some a) = some q := by
  induction l with
  | nil => exact fun a => ⟨a, rfl⟩
  | cons x xs ih =>
    intro a
    obtain ⟨q, rfl⟩ := h x (List.mem_cons_self x xs)
    exact ih (fun y hy => h y (List.mem_cons_of_mem _ hy)) (a + q)

/-- A sum of finite values is finite. -/
theorem fsum_some {l : List Flt} (h : ∀ x ∈ l, ∃ q, x = some q) :
    ∃ q, fsum l = some q :=
  foldl_fadd_some h 0

/-! ### Facts about `uniq` (distinct values) -/

theorem uniq_nil : uniq [] = [] := by rw [uniq]

theorem uniq_cons (v : String) (vs : List String) :
    uniq (v :: vs) = v :: uniq (vs.filter (fun u => decide (u ≠ v))) := by rw [uniq]

theorem mem_of_mem_uniq : ∀ {xs : List String} {a : String}, a ∈ uniq xs → a ∈ xs
  | [], _, h => by rw [uniq_nil] at h; cases h
  | v :: vs, a, h => by
    rw [uniq_cons] at h
    rcases List.mem_cons.mp h with h1 | h2
    · exact h1 ▸ List.mem_cons_self _ _
    · exact List.mem_cons_of_mem _ (List.mem_of_mem_filter (mem_of_mem_uniq h2))
termination_by xs _ _ => xs.length
decreasing_by
  simp only [List.length_cons]
  exact Nat.lt_succ_of_le (List.length_filter_le _ _)

theorem countP_filter_ne (vs : List String) (v u : String) (h : u ≠ v) :
    (vs.filter (fun x => decide (x ≠ v))).countP (fun x => decide (x = u)) =
      vs.countP (fun x => decide (x = u)) := by
  induction vs with
  | nil => rfl
  | cons w ws ih =>
    rw [List.filter_cons]
    by_cases hw : w = v
    · rw [if_neg (by simp [hw]), ih, List.countP_cons,
        if_neg (by simp [hw]; exact fun e => h e.symm)]
      omega
    · rw [if_pos (by simp [hw]), List.countP_cons, List.countP_cons, ih]

theorem countP_eq_add_length_filter_ne (vs : List String) (v : String) :
    vs.countP (fun x => decide (x = v)) + (vs.filter (fun x => decide (x ≠ v))).length =
      vs.length := by
  induction vs with
  | nil => rfl
  | cons w ws ih =>
    rw [List.countP_cons, List.filter_cons]
    by_cases hw : w = v
    · rw [if_pos (by simp [hw]), if_neg (by simp [hw])]
      simp only [List.length_cons]
      omega
    · rw [if_neg (by simp [hw]), if_pos (by simp [hw])]
      simp only [List.length_cons]
      omega

/-- The multiplicities of the distinct values of a list add up to its
length (each row of a table lands in exactly one group). -/
theorem sum_countP_uniq : ∀ (xs : List String),
    ((uniq xs).map (fun v => xs.countP (fun u => decide (u = v)))).sum = xs.length
  | [] => by rw [uniq_nil]; rfl
  | v :: vs => by
    rw [uniq_cons, List.map_cons, List.sum_cons]
    have hmap : (uniq (vs.filter (fun u => decide (u ≠ v)))).map
          (fun u => (v :: vs).countP (fun x => decide (x = u))) =
        (uniq (vs.filter (fun u => decide (u ≠ v)))).map
          (fun u => (vs.filter (fun x => decide (x ≠ v))).countP (fun x => decide (x = u))) := by
      apply List.map_congr_left
      intro u hu
      have huv : u ≠ v := by
        have := List.mem_filter.mp (mem_of_mem_uniq hu)
        simpa using this.2
      rw [List.countP_cons, if_neg (by simp; exact fun e => huv e.symm),
        countP_filter_ne vs v u huv]
      omega
    rw [hmap, sum_countP_uniq (vs.filter (fun u => decide (u ≠ v)))]
    rw [List.countP_cons, if_pos (by simp)]
    simp only [List.length_cons]
    have := countP_eq_add_length_filter_ne vs v
    omega
termination_by xs => xs.length
decreasing_by
  simp only [List.length_cons]
  exact Nat.lt_succ_of_le (List.length_filter_le _ _)

theorem findIdx?_isSome_of_mem {f : String} : ∀ {cols : List String}, f ∈ cols →
    ∃ i, cols.findIdx? (fun c => decide (c = f)) = some i := by
  intro cols
  induction cols with
  | nil => intro h; cases h
  | cons c cs ih =>
    intro h
    by_cases hc : c = f
    · exact ⟨0, by simp [List.findIdx?_cons, hc]⟩
    · rcases List.mem_cons.mp h with h1 | h2
      · exact absurd h1.symm hc
      · obtain ⟨i, hi⟩ := ih h2
        refine ⟨i + 1, ?_⟩
        rw [List.findIdx?_cons, if_neg (by simp [hc])]
        simp [List.findIdx?_succ, hi]

/-- Every group produced by `groupBy` is nonempty: its key actually
occurs in the grouped column. -/
theorem groupBy_rows_pos (t : Table) (f : String) :
    ∀ g ∈ groupBy t f, 0 < g.2.rows.length := by
  intro g hg
  obtain ⟨v, hv, rfl⟩ := List.mem_map.mp hg
  have hvcol : v ∈ colValues t f := mem_of_mem_uniq hv
  unfold colValues at hvcol
  unfold filterEq
  cases hidx : t.cols.findIdx? (fun c => decide (c = f)) with
  | none => rw [hidx] at hvcol; cases hvcol
  | some i =>
    rw [hidx] at hvcol
    obtain ⟨r, hr, hrv⟩ := List.mem_map.mp hvcol
    simp only
    have : r ∈ t.rows.filter (fun r => decide (cellAt i r = v)) :=
      List.mem_filter.mpr ⟨hr, by simp [hrv]⟩
    exact List.length_pos.mpr (List.ne_nil_of_mem this)

/-- Branch selection for `colValues` once the column position is known. -/
theorem colValues_of_findIdx (t : Table) (f : String) (i : Nat)
    (hi : t.cols.findIdx? (fun c => decide (c = f)) = some i) :
    colValues t f = t.rows.map (cellAt i) := by
  unfold colValues
  rw [hi]

/-- Branch selection for `filterEq` once the column position is known. -/
theorem filterEq_of_findIdx (t : Table) (f v : String) (i : Nat)
    (hi : t.cols.findIdx? (fun c => decide (c = f)) = some i) :
    filterEq t f v = ⟨t.cols, t.rows.filter (fun r => decide (cellAt i r = v))⟩ := by
  unfold filterEq
  rw [hi]

/-! ### Finiteness of the entropy values along the pipeline -/

/-- On all-positive counts (the only counts a `groupby` can produce) the
entropy is a finite value. -/
theorem _feature_value_entropy_some (L : ℚ → ℚ) (counts : List Nat)
    (h : ∀ i ∈ counts, 0 < i) : ∃ q, _feature_value_entropy L counts = some q := by
  unfold _feature_value_entropy
  have hterms : ∀ x ∈ counts.map
      (fun (i : Nat) => _eqn L ((i : ℚ) / ((counts.sum : ℕ) : ℚ))), ∃ q, x = some q := by
    intro x hx
    obtain ⟨i, hi, rfl⟩ := List.mem_map.mp hx
    have hipos : 0 < i := h i hi
    have htot : 0 < counts.sum :=
      lt_of_lt_of_le hipos (List.single_le_sum (fun x _ => Nat.zero_le x) i hi)
    have hq : 0 < (i : ℚ) / ((counts.sum : ℕ) : ℚ) :=
      div_pos (by exact_mod_cast hipos) (by exact_mod_cast htot)
    refine ⟨((i : ℚ) / ((counts.sum : ℕ) : ℚ)) * L ((i : ℚ) / ((counts.sum : ℕ) : ℚ)), ?_⟩
    rw [_eqn, flog2, if_pos hq]
    rfl
  obtain ⟨q, hq⟩ := fsum_some hterms
  rw [hq]
  exact ⟨-q, rfl⟩

/-- The label-distribution entropy of any subtable is finite (group sizes
are the sizes of nonempty groups). -/
theorem _e_some (L : ℚ → ℚ) (t : Table) (label : String) :
    ∃ q, _e L t label = some q := by
  apply _feature_value_entropy_some
  intro i hi
  obtain ⟨g, hg, rfl⟩ := List.mem_map.mp hi
  exact groupBy_rows_pos t label g hg

/-- Every conditional entropy computed by the module is finite. -/
theorem feature_entropy_some (L : ℚ → ℚ) (t : Table) (feature label : String) :
    ∃ q, feature_entropy L t feature label = some q := by
  apply fsum_some
  intro x hx
  obtain ⟨g, hg, rfl⟩ := List.mem_map.mp hx
  obtain ⟨q, hq⟩ := _e_some L g.2 label
  exact ⟨p t feature g.1 * q, by rw [hq]; rfl⟩

/-! ### Small summation helpers -/

theorem sum_map_div (l : List String) (g : String → ℚ) (N : ℚ) :
    (l.map (fun a => g a / N)).sum = (l.map g).sum / N := by
  induction l with
  | nil => simp
  | cons a as ih => simp [ih, add_div]

theorem sum_map_natCast (l : List String) (k : String → Nat) :
    (l.map (fun a => ((k a : ℕ) : ℚ))).sum = (((l.map k).sum : ℕ) : ℚ) := by
  induction l with
  | nil => simp
  | cons a as ih => simp [ih]

/-! ### Claim theorems: entropy-level claims -/

/-- C2: for every table and feature column, `feature_entropy` equals the
sum over the distinct values `v` of the feature present in the table of
`p(table, feature, v)` times the label-distribution entropy of the
subtable of rows where `feature == v`. -/
theorem feature_entropy_eq_spec (L : ℚ → ℚ) (t : Table) (feature label : String) :
    feature_entropy L t feature label = feature_entropy_spec L t feature label := by
  unfold feature_entropy feature_entropy_spec groupBy
  rw [List.map_map]
  rfl

/-- C3 counterexample: on the counts `[0, 1]` (a zero entry, positive
total) the code computes `_eqn(0/1) = 0 * log2(0)`, which is NaN — so the
result is non-finite and differs from the zeros-removed counts `[1]`,
whose entropy is finite (and `0`). -/
theorem entropy_zero_count_counterexample :
    _feature_value_entropy (fun _ => 0) [0, 1] = none ∧
      _feature_value_entropy (fun _ => 0) [1] = some 0 := by
  constructor <;> with_unfolding_all rfl

/-- C3 amended: a zero count makes `_feature_value_entropy` evaluate
`log2(0)` and return a non-finite (NaN) value, so the result differs from
the zeros-removed sequence, whose entropy is finite; the claimed guarantee
holds only because a `groupby` over actually-present values never produces
a zero count. -/
theorem entropy_zero_count_amended (L : ℚ → ℚ) (counts : List Nat)
    (h0 : 0 ∈ counts) (hpos : 0 < counts.sum) :
    _feature_value_entropy L counts = none ∧
      ∃ q, _feature_value_entropy L (counts.filter (fun i => decide (i ≠ 0))) = some q := by
  constructor
  · unfold _feature_value_entropy
    have hnone : none ∈ counts.map
        (fun (i : Nat) => _eqn L ((i : ℚ) / ((counts.sum : ℕ) : ℚ))) := by
      refine List.mem_map.mpr ⟨0, h0, ?_⟩
      rw [_eqn, flog2, if_neg (by simp)]
      rfl
    rw [fsum_eq_none_of_mem hnone]
    rfl
  · apply _feature_value_entropy_some
    intro i hi
    have hmem := List.mem_filter.mp hi
    have : i ≠ 0 := by simpa using hmem.2
    exact Nat.pos_of_ne_zero this

/-- C3 amended, witness at `counts = [0, 2]` and `L = fun _ => 0`. -/
theorem entropy_zero_count_amended_witness :
    _feature_value_entropy (fun _ => 0) [0, 2] = none ∧
      ∃ q, _feature_value_entropy (fun _ => 0)
        ([0, 2].filter (fun i => decide (i ≠ 0))) = some q :=
  entropy_zero_count_amended (fun _ => 0) [0, 2] (by decide) (by decide)

/-- C8: the entropy of a single-count distribution `[n]`, `n` positive, is
exactly 0 (the single term is `_eqn(n/n) = 1 * log2(1) = 0`). -/
theorem entropy_singleton (L : ℚ → ℚ) (n : Nat) (hn : 0 < n) (hL : L 1 = 0) :
    _feature_value_entropy L [n] = some 0 := by
  have hcast : ((n : ℚ)) ≠ 0 := by exact_mod_cast hn.ne'
  unfold _feature_value_entropy
  simp only [List.map_cons, List.map_nil, List.sum_cons, List.sum_nil, Nat.add_zero]
  rw [show ((n : ℚ) / ((n : ℕ) : ℚ)) = 1 from div_self hcast]
  rw [_eqn, flog2, if_pos one_pos, hL]
  unfold fsum
  simp [fadd, fneg, fmul]

/-- C8 witness at `n = 3` and `L = fun _ => 0`. -/
theorem entropy_singleton_witness :
    _feature_value_entropy (fun _ => 0) [3] = some 0 :=
  entropy_singleton (fun _ => 0) 3 (by decide) rfl

/-- C7: for a nonempty table and a feature column present in it, the
probabilities `p` of the distinct values of that column sum to exactly 1
(the model computes in exact rationals, so the spec's ±1e-9 float
tolerance is met with zero error). -/
theorem p_sum_one (t : Table) (f : String) (hf : f ∈ t.cols) (hr : t.rows ≠ []) :
    ((uniq (colValues t f)).map (fun v => p t f v)).sum = 1 := by
  obtain ⟨i, hi⟩ := findIdx?_isSome_of_mem hf
  have hcol : colValues t f = t.rows.map (cellAt i) := colValues_of_findIdx t f i hi
  have hN : ((t.rows.length : ℚ)) ≠ 0 := by
    exact_mod_cast (List.length_pos.mpr hr).ne'
  have hpv : ∀ v, p t f v =
      (((colValues t f).countP (fun u => decide (u = v)) : ℕ) : ℚ) / (t.rows.length : ℚ) := by
    intro v
    unfold p
    rw [filterEq_of_findIdx t f v i hi]
    simp only
    rw [hcol, List.countP_map, List.countP_eq_length_filter]
    rfl
  rw [List.map_congr_left (fun v _ => hpv v)]
  rw [sum_map_div, sum_map_natCast, sum_countP_uniq, hcol, List.length_map]
  exact div_self hN

/-- C7 witness: a three-row, one-column table. -/
theorem p_sum_one_witness :
    ((uniq (colValues ⟨["A"], [["x"], ["y"], ["x"]]⟩ ("A"))).map
      (fun v => p ⟨["A"], [["x"], ["y"], ["x"]]⟩ ("A") v)).sum = 1 :=
  p_sum_one ⟨["A"], [["x"], ["y"], ["x"]]⟩ ("A") (by decide) (by decide)

/-! ### The stable sort and stable min of the selector -/

theorem allSome_of_cons {x : String × Flt} {l : List (String × Flt)}
    (h : allSome (x :: l)) : allSome l :=
  fun y hy => h y (List.mem_cons_of_mem _ hy)

theorem entryLe_trans {x y z : String × Flt}
    (hy : ∃ q, y.2 = some q)
    (hxy : entryLe x y) (hyz : entryLe y z) : entryLe x z := by
  obtain ⟨qy, hqy⟩ := hy
  cases hx2 : x.2 with
  | none => simp [entryLe, hx2, hqy, fltLe] at hxy
  | some qx =>
    cases hz2 : z.2 with
    | none => simp [entryLe, hqy, hz2, fltLe] at hyz
    | some qz =>
      rw [entryLe, hx2, hqy, fltLe] at hxy
      rw [entryLe, hqy, hz2, fltLe] at hyz
      rw [entryLe, hx2, hz2, fltLe]
      simp only [decide_eq_true_eq] at hxy hyz ⊢
      exact le_trans hxy hyz

theorem entryLe_of_not_entryLe {x y : String × Flt}
    (hx : ∃ q, x.2 = some q) (hy : ∃ q, y.2 = some q)
    (h : ¬ entryLe x y) : entryLe y x := by
  obtain ⟨qx, hqx⟩ := hx
  obtain ⟨qy, hqy⟩ := hy
  rw [entryLe, hqx, hqy, fltLe] at h
  rw [entryLe, hqy, hqx, fltLe]
  simp only [decide_eq_true_eq] at h ⊢
  exact (not_le.mp h).le

theorem sorted_orderedInsert (x : String × Flt) (s : List (String × Flt))
    (hx : ∃ q, x.2 = some q) (hs : allSome s)
    (hsort : List.Sorted entryLe s) :
    List.Sorted entryLe (List.orderedInsert entryLe x s) := by
  induction s with
  | nil => simp [List.orderedInsert]
  | cons b l ih =>
    simp only [List.orderedInsert]
    by_cases hxb : entryLe x b
    · rw [if_pos hxb, List.sorted_cons]
      refine ⟨?_, hsort⟩
      intro y hy
      rcases List.mem_cons.mp hy with h1 | h2
      · exact h1 ▸ hxb
      · exact entryLe_trans (hs b (List.mem_cons_self b l)) hxb
          (List.rel_of_sorted_cons hsort y h2)
    · rw [if_neg hxb, List.sorted_cons]
      constructor
      · intro y hy
        rw [List.mem_orderedInsert] at hy
        rcases hy with h1 | h2
        · exact h1 ▸ entryLe_of_not_entryLe hx (hs b (List.mem_cons_self b l)) hxb
        · exact List.rel_of_sorted_cons hsort y h2
      · exact ih (allSome_of_cons hs) hsort.of_cons

theorem allSome_insertionSort {l : List (String × Flt)} (h : allSome l) :
    allSome (List.insertionSort entryLe l) :=
  fun y hy => h y ((List.mem_insertionSort entryLe).mp hy)

theorem sorted_insertionSort_allSome (l : List (String × Flt)) (h : allSome l) :
    List.Sorted entryLe (List.insertionSort entryLe l) := by
  induction l with
  | nil => simp
  | cons x xs ih =>
    simp only [List.insertionSort]
    exact sorted_orderedInsert x _ (h x (List.mem_cons_self x xs))
      (allSome_insertionSort (allSome_of_cons h)) (ih (allSome_of_cons h))

/-- Stability of `orderedInsert`, phrased per value: inserting a finite
value into an all-finite list places it before every equal value. -/
theorem orderedInsert_filter_val (x : String × Flt) (s : List (String × Flt)) (v : Flt)
    (hx : ∃ q, x.2 = some q) (hs : allSome s) :
    (List.orderedInsert entryLe x s).filter (fun y => decide (y.2 = v)) =
      if x.2 = v then x :: s.filter (fun y => decide (y.2 = v))
      else s.filter (fun y => decide (y.2 = v)) := by
  induction s with
  | nil =>
    simp only [List.orderedInsert]
    by_cases hv : x.2 = v
    · rw [if_pos hv, List.filter_cons, if_pos (by simp [hv])]
    · rw [if_neg hv, List.filter_cons, if_neg (by simp [hv])]
  | cons b l ih =>
    simp only [List.orderedInsert]
    by_cases hxb : entryLe x b
    · rw [if_pos hxb, List.filter_cons]
      by_cases hv : x.2 = v
      · rw [if_pos (by simp [hv]), if_pos hv]
      · rw [if_neg (by simp [hv]), if_neg hv]
    · rw [if_neg hxb]
      obtain ⟨qb, hqb⟩ := hs b (List.mem_cons_self b l)
      obtain ⟨qx, hqx⟩ := hx
      have hlt : qb < qx := by
        rw [entryLe, hqx, hqb, fltLe] at hxb
        simpa using not_le.mp (by simpa using hxb)
      have hbnex : b.2 ≠ x.2 := by
        rw [hqb, hqx]
        exact fun e => absurd (Option.some.inj e) hlt.ne
      have ihl := ih (allSome_of_cons hs)
      by_cases hv : x.2 = v
      · have hbv : ¬ (b.2 = v) := fun e => hbnex (e.trans hv.symm)
        rw [List.filter_cons, if_neg (by simp [hbv]), ihl, if_pos hv, if_pos hv,
          List.filter_cons, if_neg (by simp [hbv])]
      · rw [List.filter_cons, ihl, if_neg hv, if_neg hv, List.filter_cons]

/-- Stability of the selector's sort: for every value `v`, the entries
carrying `v` appear in the sorted list exactly as they appear in the
input. -/
theorem insertionSort_filter_val (l : List (String × Flt)) (hl : allSome l) (v : Flt) :
    (List.insertionSort entryLe l).filter (fun y => decide (y.2 = v)) =
      l.filter (fun y => decide (y.2 = v)) := by
  induction l with
  | nil => rfl
  | cons x xs ih =>
    simp only [List.insertionSort]
    rw [orderedInsert_filter_val x _ v (hl x (List.mem_cons_self x xs))
      (allSome_insertionSort (allSome_of_cons hl))]
    rw [ih (allSome_of_cons hl), List.filter_cons]
    by_cases hv : x.2 = v
    · rw [if_pos hv, if_pos (by simp [hv])]
    · rw [if_neg hv, if_neg (by simp [hv])]

theorem foldl_min_keeps (b : String × Flt) (xs : List (String × Flt))
    (h : ∀ c ∈ xs, fltLt c.2 b.2 = false) :
    xs.foldl (fun best cur => if fltLt cur.2 best.2 then cur else best) b = b := by
  induction xs with
  | nil => rfl
  | cons c cs ih =>
    rw [List.foldl_cons, if_neg (by simp [h c (List.mem_cons_self c cs)])]
    exact ih (fun y hy => h y (List.mem_cons_of_mem _ hy))

/-- Python's `min` on a sorted nonempty dict returns the first key. -/
theorem pyMinByVal_sorted (x : String × Flt) (xs : List (String × Flt))
    (hsort : List.Sorted entryLe (x :: xs)) (hall : allSome (x :: xs)) :
    pyMinByVal (x :: xs) = .ok x.1 := by
  have h : ∀ c ∈ xs, fltLt c.2 x.2 = false := by
    intro c hc
    obtain ⟨qx, hqx⟩ := hall x (List.mem_cons_self x xs)
    obtain ⟨qc, hqc⟩ := hall c (List.mem_cons_of_mem _ hc)
    have hle : entryLe x c := List.rel_of_sorted_cons hsort c hc
    rw [entryLe, hqx, hqc, fltLe] at hle
    rw [hqc, hqx, fltLt]
    simp only [decide_eq_true_eq] at hle
    simpa using not_lt.mpr hle
  rw [pyMinByVal, foldl_min_keeps x xs h]

theorem foldl_min_mem (xs : List (String × Flt)) :
    ∀ b : String × Flt,
      xs.foldl (fun best cur => if fltLt cur.2 best.2 then cur else best) b ∈ b :: xs := by
  induction xs with
  | nil => intro b; exact List.mem_cons_self b []
  | cons c cs ih =>
    intro b
    rw [List.foldl_cons]
    have hmem := ih (if fltLt c.2 b.2 then c else b)
    rcases List.mem_cons.mp hmem with h1 | h2
    · rw [h1]
      by_cases hc : fltLt c.2 b.2 = true
      · rw [if_pos hc]
        exact List.mem_cons_of_mem _ (List.mem_cons_self _ _)
      · rw [if_neg hc]
        exact List.mem_cons_self _ _
    · exact List.mem_cons_of_mem _ (List.mem_cons_of_mem _ h2)

/-! ### Association-list helpers for the selector proof -/

theorem bool_eq_of_iff {a b : Bool} (h : a = true ↔ b = true) : a = b := by
  cases a <;> cases b <;> simp_all

theorem find?_eq_head_filter (p : String → Bool) (l : List String) :
    l.find? p = (l.filter p).head? := by
  induction l with
  | nil => rfl
  | cons a as ih =>
    rw [List.find?_cons, List.filter_cons]
    by_cases h : p a = true
    · rw [h]; rfl
    · rw [Bool.not_eq_true] at h
      rw [h]; exact ih

theorem find?_congr {p q : String → Bool} (l : List String)
    (h : ∀ a ∈ l, p a = q a) : l.find? p = l.find? q := by
  induction l with
  | nil => rfl
  | cons a as ih =>
    rw [List.find?_cons, List.find?_cons, h a (List.mem_cons_self a as)]
    exact match hq : q a with
    | true => rfl
    | false => ih (fun x hx => h x (List.mem_cons_of_mem _ hx))

theorem filter_fst_map (E : String → Flt) (P : String → Bool) (l : List String) :
    (l.map (fun f => (f, E f))).filter (fun x => P x.1) =
      (l.filter P).map (fun f => (f, E f)) := by
  induction l with
  | nil => rfl
  | cons a as ih =>
    rw [List.map_cons, List.filter_cons, List.filter_cons]
    by_cases h : P a = true
    · rw [if_pos h, if_pos h, List.map_cons, ih]
    · rw [if_neg h, if_neg h, ih]

theorem filter_snd_map (E : String → Flt) (v : Flt) (l : List String) :
    (l.map (fun f => (f, E f))).filter (fun x => decide (x.2 = v)) =
      (l.filter (fun f => decide (E f = v))).map (fun f => (f, E f)) := by
  induction l with
  | nil => rfl
  | cons a as ih =>
    rw [List.map_cons, List.filter_cons, List.filter_cons]
    by_cases h : E a = v
    · rw [if_pos (by simp [h]), if_pos (by simp [h]), List.map_cons, ih]
    · rw [if_neg (by simp [h]), if_neg (by simp [h]), ih]

/-- Filtering on keys commutes with filtering on values. -/
theorem filter_key_val_comm (s : List (String × Flt)) (P : String → Bool) (v : Flt) :
    (s.filter (fun x => P x.1)).filter (fun x => decide (x.2 = v)) =
      (s.filter (fun x => decide (x.2 = v))).filter (fun x => P x.1) := by
  rw [List.filter_filter, List.filter_filter]
  exact List.filter_congr (fun x _ => Bool.and_comm _ _)

/-- Core of the selector proof, with the entropy function abstracted to an
arbitrary finite-valued `E`: the sort–delete–min pipeline of `rank`
returns exactly the first candidate column (label excluded, column order)
whose value is minimal. -/
theorem rank_core (E : String → Flt) (cols : List String) (label : String)
    (hE : ∀ f, ∃ q, E f = some q)
    (hmem : label ∈ cols)
    (hcand : cols.filter (fun c => decide (c ≠ label)) ≠ []) :
    ∃ f,
      (match pyDel (List.insertionSort entryLe (cols.map (fun c => (c, E c)))) label with
        | .error e => Except.error e
        | .ok remaining => pyMinByVal remaining) = Except.ok f ∧
      (cols.filter (fun c => decide (c ≠ label))).find? (fun a =>
        (cols.filter (fun c => decide (c ≠ label))).all (fun g => fltLe (E a) (E g)))
        = some f ∧
      f ∈ cols.filter (fun c => decide (c ≠ label)) := by
  have hallitems : allSome (cols.map (fun c => (c, E c))) := by
    intro x hx
    obtain ⟨f, hf, rfl⟩ := List.mem_map.mp hx
    exact hE f
  have hperm := List.perm_insertionSort entryLe (cols.map (fun c => (c, E c)))
  have halls := allSome_insertionSort hallitems
  have hsorted := sorted_insertionSort_allSome _ hallitems
  have hany : (List.insertionSort entryLe (cols.map (fun c => (c, E c)))).any
      (fun x => decide (x.1 = label)) = true := by
    rw [List.any_eq_true]
    exact ⟨(label, E label), hperm.mem_iff.mpr (List.mem_map_of_mem _ hmem), by simp⟩
  have hdel : pyDel (List.insertionSort entryLe (cols.map (fun c => (c, E c)))) label =
      .ok ((List.insertionSort entryLe (cols.map (fun c => (c, E c)))).filter
        (fun x => decide (x.1 ≠ label))) := by
    rw [pyDel, if_pos hany]
  have hdperm : List.Perm
      ((List.insertionSort entryLe (cols.map (fun c => (c, E c)))).filter
        (fun x => decide (x.1 ≠ label)))
      ((cols.map (fun c => (c, E c))).filter (fun x => decide (x.1 ≠ label))) :=
    hperm.filter _
  have hfl : (cols.map (fun c => (c, E c))).filter (fun x => decide (x.1 ≠ label)) =
      (cols.filter (fun c => decide (c ≠ label))).map (fun c => (c, E c)) :=
    filter_fst_map E (fun c => decide (c ≠ label)) cols
  have hdne : (List.insertionSort entryLe (cols.map (fun c => (c, E c)))).filter
      (fun x => decide (x.1 ≠ label)) ≠ [] := by
    intro he
    apply hcand
    have hlen := hdperm.length_eq
    rw [he, hfl, List.length_map] at hlen
    exact List.eq_nil_of_length_eq_zero hlen.symm
  obtain ⟨dh, dt, hd⟩ := List.exists_cons_of_ne_nil hdne
  have hdsorted := hsorted.filter (fun x => decide (x.1 ≠ label))
  have halld : allSome ((List.insertionSort entryLe (cols.map (fun c => (c, E c)))).filter
      (fun x => decide (x.1 ≠ label))) :=
    fun y hy => halls y (List.mem_of_mem_filter hy)
  have hmin : pyMinByVal ((List.insertionSort entryLe (cols.map (fun c => (c, E c)))).filter
      (fun x => decide (x.1 ≠ label))) = .ok dh.1 := by
    rw [hd]
    exact pyMinByVal_sorted dh dt (hd ▸ hdsorted) (hd ▸ halld)
  have hdhd : dh ∈ (List.insertionSort entryLe (cols.map (fun c => (c, E c)))).filter
      (fun x => decide (x.1 ≠ label)) := hd ▸ List.mem_cons_self dh dt
  have hdhfl : dh ∈ (cols.filter (fun c => decide (c ≠ label))).map (fun c => (c, E c)) := by
    rw [← hfl]
    exact hdperm.mem_iff.mp hdhd
  obtain ⟨c0, hc0mem, hc0eq⟩ := List.mem_map.mp hdhfl
  have hdh1 : dh.1 = c0 := by rw [← hc0eq]
  have hdh2 : dh.2 = E c0 := by rw [← hc0eq]
  have hminimal : ∀ g ∈ cols.filter (fun c => decide (c ≠ label)),
      fltLe dh.2 (E g) = true := by
    intro g hg
    have hgin : (g, E g) ∈ (List.insertionSort entryLe
        (cols.map (fun c => (c, E c)))).filter (fun x => decide (x.1 ≠ label)) := by
      apply hdperm.mem_iff.mpr
      rw [hfl]
      exact List.mem_map_of_mem _ hg
    rw [hd] at hgin
    rcases List.mem_cons.mp hgin with h1 | h2
    · obtain ⟨q, hq⟩ := hE g
      rw [← h1]
      show fltLe (E g) (E g) = true
      rw [hq, fltLe]
      simp
    · exact (List.rel_of_sorted_cons (hd ▸ hdsorted) _ h2 : entryLe dh (g, E g))
  obtain ⟨qm, hqm⟩ := hE c0
  have hpoint : ∀ f ∈ cols.filter (fun c => decide (c ≠ label)),
      ((cols.filter (fun c => decide (c ≠ label))).all (fun g => fltLe (E f) (E g))) =
        decide (E f = dh.2) := by
    intro f hf
    apply bool_eq_of_iff
    rw [List.all_eq_true, decide_eq_true_eq]
    constructor
    · intro hall
      obtain ⟨qf, hqf⟩ := hE f
      have h1 : fltLe (E f) (E c0) = true := hall c0 hc0mem
      have h2 : fltLe dh.2 (E f) = true := hminimal f hf
      rw [hqf, hqm, fltLe] at h1
      rw [hdh2, hqm, hqf, fltLe] at h2
      simp only [decide_eq_true_eq] at h1 h2
      rw [hqf, hdh2, hqm]
      exact congrArg some (le_antisymm h1 h2)
    · intro heq g hg
      rw [heq]
      exact hminimal g hg
  have hstab := insertionSort_filter_val (cols.map (fun c => (c, E c))) hallitems dh.2
  have hdfilter :
      ((List.insertionSort entryLe (cols.map (fun c => (c, E c)))).filter
        (fun x => decide (x.1 ≠ label))).filter (fun x => decide (x.2 = dh.2)) =
      ((cols.filter (fun c => decide (c ≠ label))).filter
        (fun f => decide (E f = dh.2))).map (fun c => (c, E c)) := by
    rw [filter_key_val_comm _ (fun c => decide (c ≠ label)) dh.2, hstab,
      ← filter_key_val_comm _ (fun c => decide (c ≠ label)) dh.2, hfl, filter_snd_map]
  have hdcons : ((List.insertionSort entryLe (cols.map (fun c => (c, E c)))).filter
      (fun x => decide (x.1 ≠ label))).filter (fun x => decide (x.2 = dh.2)) =
      dh :: dt.filter (fun x => decide (x.2 = dh.2)) := by
    rw [hd, List.filter_cons, if_pos (by simp)]
  cases hc : (cols.filter (fun c => decide (c ≠ label))).filter
      (fun f => decide (E f = dh.2)) with
  | nil =>
    rw [hc] at hdfilter
    rw [hdfilter] at hdcons
    cases hdcons
  | cons a rest =>
    rw [hc, List.map_cons] at hdfilter
    rw [hdfilter] at hdcons
    have hadh : (a, E a) = dh := (List.cons.injEq _ _ _ _).mp hdcons |>.1
    have ha1 : dh.1 = a := by rw [← hadh]
    refine ⟨dh.1, ?_, ?_, ?_⟩
    · rw [hdel]
      exact hmin
    · rw [find?_congr _ hpoint, find?_eq_head_filter, hc, List.head?_cons, ha1]
    · rw [hdh1]
      exact hc0mem

/-- Characterisation of `rank` on any working copy whose columns include
the label and at least one candidate: it succeeds and returns the first
candidate column of minimal conditional entropy (`specBest`). -/
theorem rank_spec (L : ℚ → ℚ) (wc : Table) (label : String)
    (hmem : label ∈ wc.cols)
    (hcand : wc.cols.filter (fun c => decide (c ≠ label)) ≠ []) :
    ∃ f, rank L wc label = .ok f ∧ specBest L wc label = some f ∧
      f ∈ wc.cols.filter (fun c => decide (c ≠ label)) :=
  rank_core (fun f => feature_entropy L wc f label) wc.cols label
    (fun f => feature_entropy_some L wc f label) hmem hcand

/-! ### Pipeline plumbing for `max_info_gain_feature` -/

/-- Unfolding of the entry point on the success path of insert and drop:
it ranks the working copy (label in front, index column removed). -/
theorem max_info_gain_eq_rank (L : ℚ → ℚ) (t : Table) (y : LabelVec)
    (hlab : y.name ∉ t.cols)
    (hidx : ("index") ∈ y.name :: t.cols) :
    max_info_gain_feature L t y =
      rank L (dropTable
        ⟨y.name :: t.cols, List.zipWith (fun v r => v :: r) y.values t.rows⟩
        ("index")) y.name := by
  simp only [max_info_gain_feature, insertCol, if_neg hlab, dropCol, if_pos hidx]

/-- The columns of the working copy, when the label is fresh and differs
from the index name. -/
theorem workingCopy_cols (t : Table) (y : LabelVec) (hyidx : y.name ≠ "index") :
    (dropTable ⟨y.name :: t.cols, List.zipWith (fun v r => v :: r) y.values t.rows⟩
      ("index")).cols = y.name :: t.cols.filter (fun x => decide (x ≠ "index")) := by
  show (y.name :: t.cols).filter (fun x => decide (x ≠ "index")) = _
  rw [List.filter_cons, if_pos (by simp [hyidx])]

/-- The candidate set of the working copy is the feature set of the
caller's table minus the index column. -/
theorem workingCopy_cands (t : Table) (y : LabelVec)
    (hlab : y.name ∉ t.cols) (hyidx : y.name ≠ "index") :
    (dropTable ⟨y.name :: t.cols, List.zipWith (fun v r => v :: r) y.values t.rows⟩
        ("index")).cols.filter (fun c => decide (c ≠ y.name)) =
      t.cols.filter (fun x => decide (x ≠ "index")) := by
  rw [workingCopy_cols t y hyidx, List.filter_cons, if_neg (by simp)]
  apply List.filter_eq_self.mpr
  intro a ha
  have hat : a ∈ t.cols := List.mem_of_mem_filter ha
  simp only [decide_eq_true_eq]
  exact fun e => hlab (e ▸ hat)

/-! ### Claim theorems: the selector -/

/-- C1 counterexample (as frozen, the claim fails on tables that lack an
`index` column): this table has one row and one feature column that is
neither the label nor `index`, yet the call raises `KeyError` from the
unconditional `df.drop('index', axis=1)` instead of returning the
minimal-entropy feature. -/
theorem best_feature_argmin_counterexample :
    max_info_gain_feature (fun _ => 0) ⟨["Weather"], [["Sunny"]]⟩ ⟨"Play", ["Yes"]⟩ =
        .error (.keyErrorDrop ("index")) ∧
      (⟨["Weather"], [["Sunny"]]⟩ : Table).rows ≠ [] ∧
      ("Weather") ∈ (⟨["Weather"], [["Sunny"]]⟩ : Table).cols ∧
      ("Weather") ≠ ("Play") ∧ ("Weather") ≠ ("index") := by
  refine ⟨by with_unfolding_all rfl, by decide, by decide, by decide, by decide⟩

/-- C1 amended: on a table with at least one row, pairwise-distinct column
names, a column literally named `index`, no column named after the label,
and at least one candidate (non-label, non-index) column,
`max_info_gain_feature` succeeds and returns the candidate column whose
conditional entropy `feature_entropy(working_copy, f, label)` is minimal,
ties broken by the original column order (`specBest`). -/
theorem best_feature_argmin (L : ℚ → ℚ) (t : Table) (y : LabelVec)
    (hnd : t.cols.Nodup) (hrows : t.rows ≠ [])
    (hidx : ("index") ∈ t.cols) (hlab : y.name ∉ t.cols)
    (hcand : t.cols.filter (fun c => decide (c ≠ "index")) ≠ []) :
    ∃ wc f,
      (insertCol t y.name y.values).bind (fun a => dropCol a ("index")) = .ok wc ∧
      specBest L wc y.name = some f ∧
      max_info_gain_feature L t y = .ok f := by
  have hyidx : y.name ≠ "index" := fun e => hlab (e ▸ hidx)
  have hmem : y.name ∈ (dropTable
      ⟨y.name :: t.cols, List.zipWith (fun v r => v :: r) y.values t.rows⟩
      ("index")).cols := by
    rw [workingCopy_cols t y hyidx]
    exact List.mem_cons_self _ _
  have hcand2 : (dropTable
      ⟨y.name :: t.cols, List.zipWith (fun v r => v :: r) y.values t.rows⟩
      ("index")).cols.filter (fun c => decide (c ≠ y.name)) ≠ [] := by
    rw [workingCopy_cands t y hlab hyidx]
    exact hcand
  obtain ⟨f, hrank, hspec, hfmem⟩ := rank_spec L
    (dropTable ⟨y.name :: t.cols, List.zipWith (fun v r => v :: r) y.values t.rows⟩
      ("index")) y.name hmem hcand2
  refine ⟨_, f, ?_, hspec, ?_⟩
  · rw [insertCol, if_neg hlab]
    show dropCol _ ("index") = _
    rw [dropCol, if_pos (List.mem_cons_of_mem _ hidx)]
  · rw [max_info_gain_eq_rank L t y hlab (List.mem_cons_of_mem _ hidx)]
    exact hrank

/-- C1 amended, witness: a two-row table with an index column and two
candidate features (all entropies tie under the constant logarithm, so
the first candidate in column order is returned). -/
theorem best_feature_argmin_witness :
    ∃ wc f,
      (insertCol ⟨["index", "A", "B"], [["1", "a", "x"], ["2", "b", "x"]]⟩
          ("Play") ["Yes", "No"]).bind (fun a => dropCol a ("index")) = .ok wc ∧
      specBest (fun _ => 0) wc ("Play") = some f ∧
      max_info_gain_feature (fun _ => 0)
        ⟨["index", "A", "B"], [["1", "a", "x"], ["2", "b", "x"]]⟩
        ⟨"Play", ["Yes", "No"]⟩ = .ok f :=
  best_feature_argmin (fun _ => 0)
    ⟨["index", "A", "B"], [["1", "a", "x"], ["2", "b", "x"]]⟩ ⟨"Play", ["Yes", "No"]⟩
    (by decide) (by decide) (by decide) (by decide) (by decide)

/-- C5: when the label's name collides with an existing column, the call
fails at the merge (`df.insert` refuses to overwrite: `ValueError`), an
`AmbiguousLabelError` in the spec's taxonomy — no data is overwritten. -/
theorem label_collision (L : ℚ → ℚ) (t : Table) (y : LabelVec) (hy : y.name ∈ t.cols) :
    max_info_gain_feature L t y = .error (.valueErrorInsert y.name) ∧
      (PyErr.valueErrorInsert y.name).kind = ErrKind.ambiguousLabel := by
  refine ⟨?_, rfl⟩
  simp only [max_info_gain_feature, insertCol, if_pos hy]

/-- C5 witness: a label named like the only feature column. -/
theorem label_collision_witness :
    max_info_gain_feature (fun _ => 0) ⟨["A"], [["x"]]⟩ ⟨"A", ["y"]⟩ =
        .error (.valueErrorInsert ("A")) ∧
      (PyErr.valueErrorInsert ("A")).kind = ErrKind.ambiguousLabel :=
  label_collision (fun _ => 0) ⟨["A"], [["x"]]⟩ ⟨"A", ["y"]⟩ (by decide)

/-- When the label name is not among the working copy's columns (this
happens when the label is itself named `index` and gets dropped), the
`del entropy_values[label]` raises `KeyError`. -/
theorem rank_del_err (L : ℚ → ℚ) (df : Table) (label : String) (h : label ∉ df.cols) :
    rank L df label = .error (.keyErrorDel label) := by
  have hanyt : ¬ ((List.insertionSort entryLe
      (df.cols.map (fun f => (f, feature_entropy L df f label)))).any
        (fun x => decide (x.1 = label)) = true) := by
    rw [List.any_eq_true]
    rintro ⟨x, hx, hxl⟩
    have hx2 := (List.mem_insertionSort entryLe).mp hx
    obtain ⟨f, hf, hfx⟩ := List.mem_map.mp hx2
    rw [← hfx] at hxl
    simp only [decide_eq_true_eq] at hxl
    exact h (hxl ▸ hf)
  unfold rank
  rw [pyDel, if_neg hanyt]

/-- C10: on a table without a column literally named `index`, the entry
point never succeeds — the unconditional `df.drop('index', axis=1)` (or,
when the label itself is named `index`, the later `del`) raises. -/
theorem no_index_never_succeeds (L : ℚ → ℚ) (t : Table) (y : LabelVec)
    (hidx : ("index") ∉ t.cols) : ∀ f, max_info_gain_feature L t y ≠ .ok f := by
  intro f
  by_cases hy : y.name ∈ t.cols
  · simp only [max_info_gain_feature, insertCol, if_pos hy]
    intro h
    cases h
  · by_cases hyi : y.name = "index"
    · rw [max_info_gain_eq_rank L t y hy (by rw [hyi]; exact List.mem_cons_self _ _)]
      have hcols : (dropTable
          ⟨y.name :: t.cols, List.zipWith (fun v r => v :: r) y.values t.rows⟩
          ("index")).cols = t.cols := by
        show (y.name :: t.cols).filter (fun x => decide (x ≠ "index")) = t.cols
        rw [List.filter_cons, if_neg (by simp [hyi])]
        apply List.filter_eq_self.mpr
        intro a ha
        simp only [decide_eq_true_eq]
        exact fun e => hidx (e ▸ ha)
      rw [rank_del_err L _ y.name (by rw [hcols]; exact fun hm => hidx (hyi ▸ hm))]
      intro h
      cases h
    · simp only [max_info_gain_feature, insertCol, if_neg hy, dropCol,
        if_neg (show ¬ (("index") ∈ y.name :: t.cols) from by
          intro hm
          rcases List.mem_cons.mp hm with h1 | h2
          · exact hyi h1.symm
          · exact hidx h2)]
      intro h
      cases h

/-- C10 witness: a one-feature table with no index column. -/
theorem no_index_never_succeeds_witness :
    max_info_gain_feature (fun _ => 0) ⟨["A"], [["x"]]⟩ ⟨"P", ["v"]⟩ ≠ .ok ("A") :=
  no_index_never_succeeds (fun _ => 0) ⟨["A"], [["x"]]⟩ ⟨"P", ["v"]⟩ (by decide) ("A")

/-- C4 counterexample (as frozen, the zero-row half of the claim fails):
on a zero-row table with an index column and a feature column, the call
does not fail — every entropy is an empty sum, and the first feature is
returned silently. -/
theorem degenerate_inputs_counterexample :
    (⟨["index", "A"], []⟩ : Table).rows = [] ∧
      max_info_gain_feature (fun _ => 0) ⟨["index", "A"], []⟩ ⟨"P", []⟩ = .ok ("A") :=
  ⟨rfl, by with_unfolding_all rfl⟩

/-- C4 amended: with the label fresh and an index column present, the
call fails (with an invalid-input kind error, from `min()` on an empty
dict) when there are zero candidate columns after excluding label and
index; but with zero rows and at least one candidate it does NOT fail —
it silently returns a feature. -/
theorem degenerate_inputs_amended (L : ℚ → ℚ) (t : Table) (y : LabelVec)
    (hidx : ("index") ∈ t.cols) (hlab : y.name ∉ t.cols) :
    (t.cols.filter (fun c => decide (c ≠ "index")) = [] →
      max_info_gain_feature L t y = .error .valueErrorMinEmpty ∧
        PyErr.valueErrorMinEmpty.kind = ErrKind.invalidInput) ∧
    (t.rows = [] → t.cols.filter (fun c => decide (c ≠ "index")) ≠ [] →
      ∃ f, max_info_gain_feature L t y = .ok f) := by
  have hyidx : y.name ≠ "index" := fun e => hlab (e ▸ hidx)
  constructor
  · intro hempty
    refine ⟨?_, rfl⟩
    rw [max_info_gain_eq_rank L t y hlab (List.mem_cons_of_mem _ hidx)]
    have hc : (dropTable
        ⟨y.name :: t.cols, List.zipWith (fun v r => v :: r) y.values t.rows⟩
        ("index")).cols = [y.name] := by
      rw [workingCopy_cols t y hyidx, hempty]
    unfold rank
    rw [hc]
    simp [List.insertionSort, List.orderedInsert, pyDel, pyMinByVal]
  · intro hrows hcand
    have hmem : y.name ∈ (dropTable
        ⟨y.name :: t.cols, List.zipWith (fun v r => v :: r) y.values t.rows⟩
        ("index")).cols := by
      rw [workingCopy_cols t y hyidx]
      exact List.mem_cons_self _ _
    have hcand2 : (dropTable
        ⟨y.name :: t.cols, List.zipWith (fun v r => v :: r) y.values t.rows⟩
        ("index")).cols.filter (fun c => decide (c ≠ y.name)) ≠ [] := by
      rw [workingCopy_cands t y hlab hyidx]
      exact hcand
    obtain ⟨f, hrank, _, _⟩ := rank_spec L
      (dropTable ⟨y.name :: t.cols, List.zipWith (fun v r => v :: r) y.values t.rows⟩
        ("index")) y.name hmem hcand2
    refine ⟨f, ?_⟩
    rw [max_info_gain_eq_rank L t y hlab (List.mem_cons_of_mem _ hidx)]
    exact hrank

/-- C4 amended, witness: the error half at a table whose only column is
`index`; the zero-row half at a zero-row table with one feature. -/
theorem degenerate_inputs_amended_witness :
    (max_info_gain_feature (fun _ => 0) ⟨["index"], [["1"]]⟩ ⟨"P", ["y"]⟩ =
        .error .valueErrorMinEmpty ∧
      PyErr.valueErrorMinEmpty.kind = ErrKind.invalidInput) ∧
    (∃ f, max_info_gain_feature (fun _ => 0) ⟨["index", "A"], []⟩ ⟨"P", []⟩ = .ok f) :=
  ⟨(degenerate_inputs_amended (fun _ => 0) ⟨["index"], [["1"]]⟩ ⟨"P", ["y"]⟩
      (by decide) (by decide)).1 (by decide),
   (degenerate_inputs_amended (fun _ => 0) ⟨["index", "A"], []⟩ ⟨"P", []⟩
      (by decide) (by decide)).2 rfl (by decide)⟩

/-- Dropping a column from a row after a fresh cell was put in front,
when the new column's name differs from the dropped name. -/
theorem dropRow_cons (cols : List String) (c a v : String) (r : List String)
    (h : a ≠ c) : dropRow (a :: cols) c (v :: r) = v :: dropRow cols c r := by
  unfold dropRow
  rw [List.zip_cons_cons, List.filter_cons, if_pos (by simp [h]), List.map_cons]

/-- Whatever `rank` returns is one of the columns it was handed. -/
theorem rank_ok_mem (L : ℚ → ℚ) (df : Table) (label : String) (f : String)
    (h : rank L df label = .ok f) : f ∈ df.cols := by
  unfold rank at h
  cases hdel : pyDel (List.insertionSort entryLe
      (df.cols.map (fun c => (c, feature_entropy L df c label)))) label with
  | error e => rw [hdel] at h; cases h
  | ok remaining =>
    rw [hdel] at h
    have hrem : remaining = (List.insertionSort entryLe
        (df.cols.map (fun c => (c, feature_entropy L df c label)))).filter
          (fun x => decide (x.1 ≠ label)) := by
      unfold pyDel at hdel
      by_cases hany : (List.insertionSort entryLe
          (df.cols.map (fun c => (c, feature_entropy L df c label)))).any
            (fun x => decide (x.1 = label)) = true
      · rw [if_pos hany] at hdel
        exact (Except.ok.inj hdel).symm
      · rw [if_neg hany] at hdel
        cases hdel
    cases hrm : remaining with
    | nil =>
      rw [hrm] at h
      simp [pyMinByVal] at h
    | cons x xs =>
      rw [hrm] at h
      simp only [pyMinByVal, Except.ok.injEq] at h
      have hmem := foldl_min_mem xs x
      rw [← hrm, hrem] at hmem
      have hsort := List.mem_of_mem_filter hmem
      have hitems := (List.mem_insertionSort entryLe).mp hsort
      obtain ⟨c, hc, hceq⟩ := List.mem_map.mp hitems
      rw [← h, ← hceq]
      exact hc

/-- C6 counterexample (as frozen, the claim fails when the label vector is
itself named `index`): with the index column present the call fails at the
merge, while the same computation on the index-free table succeeds. -/
theorem index_exclusion_counterexample :
    max_info_gain_feature (fun _ => 0) ⟨["index", "A"], [["0", "x"]]⟩
        ⟨"index", ["Yes"]⟩ = .error (.valueErrorInsert ("index")) ∧
      bestFeatureOnPruned (fun _ => 0)
        (dropTable ⟨["index", "A"], [["0", "x"]]⟩ ("index"))
        ⟨"index", ["Yes"]⟩ = .ok ("A") := by
  constructor <;> with_unfolding_all rfl

/-- C6 amended: for a table containing an `index` column and a label not
named `index`, the index column never appears in the output, and the
result (success or error) is exactly that of the merge-and-rank
computation on the table with the index column removed. -/
theorem index_exclusion (L : ℚ → ℚ) (t : Table) (y : LabelVec)
    (hidx : ("index") ∈ t.cols) (hyidx : y.name ≠ "index") :
    (∀ f, max_info_gain_feature L t y = .ok f → f ≠ "index") ∧
    max_info_gain_feature L t y = bestFeatureOnPruned L (dropTable t ("index")) y := by
  constructor
  · intro f hok
    by_cases hy : y.name ∈ t.cols
    · simp only [max_info_gain_feature, insertCol, if_pos hy] at hok
      cases hok
    · rw [max_info_gain_eq_rank L t y hy (List.mem_cons_of_mem _ hidx)] at hok
      have hfin := rank_ok_mem L _ y.name f hok
      rw [workingCopy_cols t y hyidx] at hfin
      rcases List.mem_cons.mp hfin with h1 | h2
      · exact h1 ▸ hyidx
      · have := List.mem_filter.mp h2
        simpa using this.2
  · by_cases hy : y.name ∈ t.cols
    · have hy2 : y.name ∈ (dropTable t ("index")).cols :=
        List.mem_filter.mpr ⟨hy, by simp [hyidx]⟩
      simp only [max_info_gain_feature, insertCol, if_pos hy,
        bestFeatureOnPruned, if_pos hy2]
    · have hy2 : y.name ∉ (dropTable t ("index")).cols :=
        fun hm => hy (List.mem_of_mem_filter hm)
      rw [max_info_gain_eq_rank L t y hy (List.mem_cons_of_mem _ hidx)]
      simp only [bestFeatureOnPruned, insertCol, if_neg hy2]
      have hfun : (fun (v : String) (r : List String) =>
            dropRow (y.name :: t.cols) ("index") (v :: r)) =
          (fun (v : String) (r : List String) => v :: dropRow t.cols ("index") r) := by
        funext v r
        exact dropRow_cons t.cols ("index") y.name v r hyidx
      have htab : dropTable
          ⟨y.name :: t.cols, List.zipWith (fun v r => v :: r) y.values t.rows⟩
          ("index") =
          (⟨y.name :: (dropTable t ("index")).cols,
            List.zipWith (fun v r => v :: r) y.values (dropTable t ("index")).rows⟩ :
              Table) := by
        unfold dropTable
        dsimp only
        rw [List.filter_cons, if_pos (by simp [hyidx])]
        rw [List.map_zipWith, List.zipWith_map_right, hfun]
      rw [htab]

/-- C6 amended, witness: a two-row table with an index column and one
feature. -/
theorem index_exclusion_witness :
    (∀ f, max_info_gain_feature (fun _ => 0)
        ⟨["index", "A"], [["1", "a"], ["2", "b"]]⟩ ⟨"Play", ["Yes", "No"]⟩ =
          .ok f → f ≠ "index") ∧
    max_info_gain_feature (fun _ => 0) ⟨["index", "A"], [["1", "a"], ["2", "b"]]⟩
        ⟨"Play", ["Yes", "No"]⟩ =
      bestFeatureOnPruned (fun _ => 0)
        (dropTable ⟨["index", "A"], [["1", "a"], ["2", "b"]]⟩ ("index"))
        ⟨"Play", ["Yes", "No"]⟩ :=
  index_exclusion (fun _ => 0) ⟨["index", "A"], [["1", "a"], ["2", "b"]]⟩
    ⟨"Play", ["Yes", "No"]⟩ (by decide) (by decide)

/-- Object held in the caller's cell after an append (allocation) at the
end of the heap: unchanged. -/
theorem getD_snoc_lt (h : List Table) (x : Table) (ti : Nat) (hti : ti < h.length) :
    (h ++ [x]).getD ti ⟨[], []⟩ = h.getD ti ⟨[], []⟩ :=
  List.getD_append h [x] ⟨[], []⟩ ti hti

/-- Object held in the caller's cell after the copy's cell is mutated:
unchanged. -/
theorem getD_set_snoc_lt (h : List Table) (x df1 : Table) (ti : Nat)
    (hti : ti < h.length) :
    ((h ++ [x]).set h.length df1).getD ti ⟨[], []⟩ = h.getD ti ⟨[], []⟩ := by
  rw [List.getD_eq_getElem?_getD, List.getElem?_set_ne (Nat.ne_of_gt hti),
    List.getElem?_append_left hti, ← List.getD_eq_getElem?_getD]

/-- C9: the caller's table object is never mutated — after the call the
caller's heap cell holds exactly the table it held before, and the
returned value agrees with the direct (pure) reading of the entry
point. -/
theorem no_caller_mutation (L : ℚ → ℚ) (h : List Table) (ti : Nat) (y : LabelVec)
    (hti : ti < h.length) :
    ((max_info_gain_feature_heap L h ti y).2).getD ti ⟨[], []⟩ = h.getD ti ⟨[], []⟩ ∧
    (max_info_gain_feature_heap L h ti y).1 =
      max_info_gain_feature L (h.getD ti ⟨[], []⟩) y := by
  have hget1 : (h ++ [h.getD ti ⟨[], []⟩]).getD h.length ⟨[], []⟩ =
      h.getD ti ⟨[], []⟩ := by
    rw [List.getD_append_right _ _ _ _ (le_refl _)]
    simp
  unfold max_info_gain_feature_heap max_info_gain_feature
  rw [hget1]
  cases hins : insertCol (h.getD ti ⟨[], []⟩) y.name y.values with
  | error e =>
    dsimp only
    refine ⟨?_, rfl⟩
    exact getD_snoc_lt h _ ti hti
  | ok df1 =>
    dsimp only
    cases hdrop : dropCol df1 ("index") with
    | error e =>
      dsimp only
      refine ⟨?_, rfl⟩
      exact getD_set_snoc_lt h _ df1 ti hti
    | ok df2 =>
      dsimp only
      refine ⟨?_, rfl⟩
      rw [getD_snoc_lt _ df2 ti (by rw [List.length_set, List.length_append]; omega)]
      exact getD_set_snoc_lt h _ df1 ti hti

/-- C9 witness: a one-cell heap. -/
theorem no_caller_mutation_witness :
    ((max_info_gain_feature_heap (fun _ => 0) [⟨["index", "A"], [["1", "a"]]⟩] 0
        ⟨"P", ["y"]⟩).2).getD 0 ⟨[], []⟩ =
      ([⟨["index", "A"], [["1", "a"]]⟩] : List Table).getD 0 ⟨[], []⟩ ∧
    (max_info_gain_feature_heap (fun _ => 0) [⟨["index", "A"], [["1", "a"]]⟩] 0
        ⟨"P", ["y"]⟩).1 =
      max_info_gain_feature (fun _ => 0)
        (([⟨["index", "A"], [["1", "a"]]⟩] : List Table).getD 0 ⟨[], []⟩) ⟨"P", ["y"]⟩ :=
  no_caller_mutation (fun _ => 0) [⟨["index", "A"], [["1", "a"]]⟩] 0 ⟨"P", ["y"]⟩
    (by decide)
